import Mathlib

/-!
Verification of the `inception_score` pipeline (src/inception_score.py).

The program computes the Inception Score of a batch of `n` images:

  * lines 20-27: read `n, c, w, h` from the image array's shape and compute
    `n_batches = ceil(n / batch_size)`;
  * line 32: allocate an uninitialised `n × 1008` float buffer `ys`
    (`xp.empty`) for the softmax rows;
  * lines 34-52: for each batch `i`, slice `ims[i*batch_size : min((i+1)*
    batch_size, n)]`, resize to 299×299 when `(w, h) ≠ (299, 299)`, call the
    classifier under `using_config('train', False)` and
    `using_config('enable_backprop', False)`, and write the returned rows
    into `ys[batch_start:batch_end]`;
  * lines 56-64: for each split `i < splits`, take rows
    `[i*n//splits, (i+1)*n//splits)`, compute the element-wise
    `part * (log part - log (column-mean of part))`, sum over classes,
    average over rows, exponentiate; finally return the mean and the
    (population) standard deviation of the `splits` scores.

The embedding below models the image array and the classifier abstractly
(the network of lines 67-657 is a fixed deterministic map from an image to a
probability row of width 1008), machine floats as real numbers, and the
mutable numpy buffers as explicitly threaded functions `ℕ → Row`.
-/

namespace InceptionScore

/-- Number of classifier output classes: the literal `1008` of line 32
(`ys = xp.empty((n, 1008))`) and line 582 (`L.Linear(2048, 1008)`). -/
def numClasses : ℕ := 1008

/-- A row of the softmax container: one probability value per class. -/
abbrev Row : Type := Fin numClasses → ℝ

/-- Line 21: `n_batches = int(math.ceil(float(n) / float(batch_size)))`,
the exact ceiling of `n / batchSize`, written with natural division. -/
def nBatches (n batchSize : ℕ) : ℕ := (n + batchSize - 1) / batchSize

/-- Line 38: `batch_start = (i * batch_size)`. -/
def batchStart (batchSize i : ℕ) : ℕ := i * batchSize

/-- Line 39: `batch_end = min((i + 1) * batch_size, n)`. -/
def batchEnd (n batchSize i : ℕ) : ℕ := min ((i + 1) * batchSize) n

/-- Line 58, lower slice boundary for split `i`: `(i * n // splits)`. -/
def splitStart (n splits i : ℕ) : ℕ := i * n / splits

/-- Line 58, upper slice boundary for split `i`: `((i + 1) * n // splits)`. -/
def splitEnd (n splits i : ℕ) : ℕ := (i + 1) * n / splits

/-- Row indices of the slice `ys[(i*n//splits):((i+1)*n//splits), :]`
taken at line 58. -/
def splitRowIdx (n splits i : ℕ) : List ℕ :=
  List.range' (splitStart n splits i) (splitEnd n splits i - splitStart n splits i)

/-- Line 32: shape of the softmax container `ys = xp.empty((n, 1008))`.
The column count is the hardcoded literal 1008; it does not depend on the
classifier that is passed in. -/
def ysShape (n : ℕ) : ℕ × ℕ := (n, 1008)

/-- Numpy broadcasting rule for the slice assignment of line 52,
`ys[batch_start:batch_end] = y.data`: a source of shape `(k, srcCols)` is
assignable into the destination slice of shape `(k, dstCols)` exactly when
the trailing dimensions are broadcast-compatible, i.e. `srcCols = dstCols`
or `srcCols = 1` (a width-1 source is broadcast across the columns). -/
def sliceAssignOk (dstCols srcCols : ℕ) : Bool :=
  srcCols == dstCols || srcCols == 1

/-- Lines 46-47: the whole batch is resized (bilinearly, by
`F.resize_images`) to `(299, 299)` when `(w, h) != (299, 299)`; otherwise
it is passed on unchanged.  `F.resize_images` acts on each image of the
batch independently, so batch resizing is `List.map` of a per-image
resize. -/
def prepBatch {α : Type} (w h : ℕ) (resize1 : α → α) (batch : List α) : List α :=
  if (w, h) ≠ (299, 299) then batch.map resize1 else batch

/-- Per-image view of lines 46-47. -/
def resizeIfNeeded {α : Type} (w h : ℕ) (resize1 : α → α) (im : α) : α :=
  if (w, h) ≠ (299, 299) then resize1 im else im

/-- Mutable state of the pipeline: the input image array `ims` and the
softmax container `ys` (line 32; `ys r` is row `r`, uninitialised rows hold
arbitrary `xp.empty` garbage). -/
structure PipelineState (α : Type) where
  ims : List α
  ys : ℕ → Row

/-- Line 52, `ys[start:start+len(rows)] = rows`: rows `start ≤ r <
start + rows.length` are overwritten with the corresponding source row, all
other rows keep their previous contents. -/
def writeRows (ys : ℕ → Row) (start : ℕ) (rows : List Row) : ℕ → Row :=
  fun r =>
    if start ≤ r ∧ r < start + rows.length then rows.getD (r - start) (ys r)
    else ys r

/-- One iteration of the batch loop, lines 34-52: slice
`ims[batch_start:batch_end]` (line 41; `xp.asarray` and the `Variable`
wrapper alias the data without copying), resize when needed (lines 46-47),
run the classifier on each image of the batch (line 51; the network maps
each image independently to its softmax row), and write the rows into `ys`
(line 52).  Only `ys` is written: the chainer `Variable` arithmetic inside
the network (lines 589-590, `x -= 128.0; x *= 0.0078125`) rebinds `x` to
freshly built Variables — chainer Variables define no in-place operators —
so `ims` is never mutated. -/
def runBatch {α : Type} (classify : α → Row) (w h : ℕ) (resize1 : α → α)
    (batchSize : ℕ) (st : PipelineState α) (i : ℕ) : PipelineState α :=
  let bs := batchStart batchSize i
  let be := batchEnd st.ims.length batchSize i
  let imsBatch := (st.ims.take be).drop bs
  let rows := (prepBatch w h resize1 imsBatch).map classify
  { st with ys := writeRows st.ys bs rows }

/-- The whole inference loop of lines 34-52: `n_batches` iterations of
`runBatch`, in order. -/
def runInference {α : Type} (classify : α → Row) (w h : ℕ) (resize1 : α → α)
    (batchSize : ℕ) (st : PipelineState α) : PipelineState α :=
  (List.range (nBatches st.ims.length batchSize)).foldl
    (runBatch classify w h resize1 batchSize) st

/-- Number of classifier invocations performed by `inception_score`: the
model is called exactly once per iteration of the loop of lines 34-52
(line 51), i.e. `n_batches` times.  The `splits` argument is not consulted
anywhere before or during the loop — lines 9-55 contain no validation of
`splits`. -/
def classifierInvocations (n batchSize : ℕ) : ℕ := nBatches n batchSize

/-- Line 60, `xp.mean(part, 0)`: the column-wise mean of the split's rows
(the split marginal).  The mean over `k` values is their sum divided by
`k`. -/
noncomputable def marginal (P : List Row) : Fin numClasses → ℝ :=
  fun c => (P.map (fun row => row c)).sum / P.length

/-- Lines 59-60, `kl = part * (xp.log(part) - xp.log(...mean(part, 0)...))`:
the element-wise matrix of pointwise KL contributions. -/
noncomputable def klMatrix (P : List Row) : List Row :=
  P.map (fun row => fun c => row c * (Real.log (row c) - Real.log (marginal P c)))

/-- Lines 61-62: `kl = xp.mean(xp.sum(kl, 1))` (sum the KL matrix over
classes, average over rows) and `scores[i] = xp.exp(kl)`. -/
noncomputable def splitScore (P : List Row) : ℝ :=
  Real.exp (((klMatrix P).map (fun row => ∑ c, row c)).sum / (klMatrix P).length)

/-- Line 58: the sub-matrix `part` of split `i` — the rows of `ys` with
indices in `[i*n//splits, (i+1)*n//splits)`. -/
noncomputable def partOf (ys : ℕ → Row) (n splits i : ℕ) : List Row :=
  (splitRowIdx n splits i).map ys

/-- Lines 56-62: the per-split scores, in order; entry `i` of the `scores`
buffer is written by iteration `i` of the loop, for every `i < splits`. -/
noncomputable def scoresList (ys : ℕ → Row) (n splits : ℕ) : List ℝ :=
  (List.range splits).map (fun i => splitScore (partOf ys n splits i))

/-- Numpy `xp.mean` over a vector: sum divided by length. -/
noncomputable def meanList (xs : List ℝ) : ℝ := xs.sum / xs.length

/-- Numpy `xp.std` over a vector (line 64): the population standard
deviation, the square root of the mean of the squared deviations from the
mean (numpy default `ddof = 0`). -/
noncomputable def stdList (xs : List ℝ) : ℝ :=
  Real.sqrt ((xs.map (fun x => (x - meanList xs) ^ 2)).sum / xs.length)

/-- Lines 56-64: the aggregation step, from the filled softmax container to
the returned pair `(xp.mean(scores), xp.std(scores))`. -/
noncomputable def aggregate (ys : ℕ → Row) (n splits : ℕ) : ℝ × ℝ :=
  (meanList (scoresList ys n splits), stdList (scoresList ys n splits))

/-- Lines 9-64, the whole function: run the batched inference loop starting
from the input images and the uninitialised container `ys0`, then aggregate.
`w`/`h` are the spatial dimensions read from `ims.shape` at line 20 (the
images themselves are abstract, so the dimensions are carried separately);
`classify` is the classifier network applied to one image; `resize1` is the
per-image bilinear 299×299 resize of `F.resize_images`. -/
noncomputable def inception_score {α : Type} (classify : α → Row) (w h : ℕ)
    (resize1 : α → α) (ims : List α) (batchSize splits : ℕ)
    (ys0 : ℕ → Row) : ℝ × ℝ :=
  aggregate (runInference classify w h resize1 batchSize ⟨ims, ys0⟩).ys
    ims.length splits

/-! ### Scoped configuration (line 50)

Chainer's global configuration carries the `train` and `enable_backprop`
flags.  `chainer.using_config(key, value)` is a context manager: on entry it
saves the current value of `key` and sets `key := value`; on exit — normal
or exceptional — it restores the saved value onto the then-current
configuration. -/

/-- The two chainer configuration flags toggled at line 50. -/
structure ChainerConfig where
  train : Bool
  enableBackprop : Bool

/-- Configuration keys used at line 50. -/
inductive ConfigKey : Type
  | train
  | enableBackprop

/-- Read a configuration flag. -/
def getFlag : ConfigKey → ChainerConfig → Bool
  | ConfigKey.train, cfg => cfg.train
  | ConfigKey.enableBackprop, cfg => cfg.enableBackprop

/-- Write a configuration flag. -/
def setFlag : ConfigKey → Bool → ChainerConfig → ChainerConfig
  | ConfigKey.train, v, cfg => { cfg with train := v }
  | ConfigKey.enableBackprop, v, cfg => { cfg with enableBackprop := v }

/-- `chainer.using_config(k, v)` around a body: save the current value of
`k`, set `k := v`, run the body (which observes the configuration, may
itself change it, and may fail — the `Except` result carries failure), and
restore the saved value whatever the outcome.  This is the context-manager
protocol: `__exit__` runs on both normal and exceptional exit. -/
def usingConfig {ε α : Type} (k : ConfigKey) (v : Bool)
    (body : ChainerConfig → Except ε α × ChainerConfig)
    (cfg : ChainerConfig) : Except ε α × ChainerConfig :=
  let old := getFlag k cfg
  let res := body (setFlag k v cfg)
  (res.1, setFlag k old res.2)

/-- Line 50-51: `with chainer.using_config('train', False),
chainer.using_config('enable_backprop', False): y = model(ims_batch)`.
The model reads the ambient configuration and may fail (a shape mismatch
raises); it does not itself write the configuration. -/
def invokeClassifier {ε α : Type} (model : ChainerConfig → Except ε α)
    (cfg : ChainerConfig) : Except ε α × ChainerConfig :=
  usingConfig ConfigKey.train false
    (usingConfig ConfigKey.enableBackprop false (fun c => (model c, c))) cfg

/-! ### Spec-side formulation of the aggregation (for the refinement claim)

These definitions follow the words of the specification (section 4.2,
steps 3-6 and the final sentence), to be compared with the source-side
`klMatrix`/`splitScore`/`aggregate` above. -/

/-- Spec, step 3: "the per-class marginal: the column-wise mean of `part`
across its rows, yielding a length-C vector". -/
noncomputable def specMarginal (P : List Row) : Fin numClasses → ℝ :=
  fun c => (P.map (fun row => row c)).sum / P.length

/-- Spec, steps 4-5 (per row): "compute `part[r,c] * (log(part[r,c]) -
log(marginal[c]))`" and "sum these contributions across classes for each
row". -/
noncomputable def specKLRow (m : Fin numClasses → ℝ) (row : Row) : ℝ :=
  ∑ c, row c * (Real.log (row c) - Real.log (m c))

/-- Spec, steps 5-6: "average across rows within the split" and "the
split's score is `exp(mean_KL)`". -/
noncomputable def specSplitScore (P : List Row) : ℝ :=
  Real.exp ((P.map (specKLRow (specMarginal P))).sum / P.length)

/-- Spec, final sentence: "arithmetic mean and (population) standard
deviation of the S split scores, returned as a pair of scalars". -/
noncomputable def specResultPair (scores : List ℝ) : ℝ × ℝ :=
  (scores.sum / scores.length,
   Real.sqrt ((scores.map (fun x => (x - scores.sum / scores.length) ^ 2)).sum
     / scores.length))

/-! ### Split boundary arithmetic (line 58) -/

lemma splitEnd_eq_splitStart_succ (n S i : ℕ) :
    splitEnd n S i = splitStart n S (i + 1) := rfl

lemma splitStart_monotone (n S : ℕ) : Monotone (fun i => splitStart n S i) :=
  fun _ _ h => Nat.div_le_div_right (Nat.mul_le_mul_right n h)

lemma splitStart_le_splitEnd (n S i : ℕ) : splitStart n S i ≤ splitEnd n S i :=
  splitStart_monotone n S (Nat.le_succ i)

lemma splitStart_zero (n S : ℕ) : splitStart n S 0 = 0 := by
  simp [splitStart]

lemma splitStart_last (n S : ℕ) (hS : 0 < S) : splitStart n S S = n := by
  unfold splitStart
  exact Nat.mul_div_cancel_left n hS

/-- Lower bound on a split's size: `⌊a/S⌋ + ⌊b/S⌋ ≤ ⌊(a+b)/S⌋`. -/
lemma splitSize_lower (n S i : ℕ) (hS : 0 < S) :
    n / S ≤ splitEnd n S i - splitStart n S i := by
  unfold splitEnd splitStart
  rw [show (i + 1) * n = i * n + n from by ring]
  have h1 : i * n / S + n / S ≤ (i * n + n) / S := by
    rw [Nat.le_div_iff_mul_le hS, Nat.add_mul]
    exact Nat.add_le_add (Nat.div_mul_le_self _ S) (Nat.div_mul_le_self n S)
  exact Nat.le_sub_of_add_le (by rwa [Nat.add_comm] at h1)

/-- Upper bound on a split's size: `⌊(a+b)/S⌋ ≤ ⌊a/S⌋ + ⌊b/S⌋ + 1`. -/
lemma splitSize_upper (n S i : ℕ) (hS : 0 < S) :
    splitEnd n S i - splitStart n S i ≤ n / S + 1 := by
  unfold splitEnd splitStart
  rw [show (i + 1) * n = i * n + n from by ring, Nat.add_div hS]
  have h : (if S ≤ i * n % S + n % S then 1 else 0) ≤ 1 := by split <;> decide
  generalize i * n / S = x at *
  generalize n / S = y at *
  generalize (if S ≤ i * n % S + n % S then 1 else 0) = z at *
  omega

/-- The split sizes sum to `n`: the boundary sequence telescopes from
`0*n/S = 0` to `S*n/S = n`. -/
lemma sum_splitSizes (n S : ℕ) (hS : 0 < S) :
    ∑ i ∈ Finset.range S, (splitEnd n S i - splitStart n S i) = n := by
  have h := Finset.sum_range_tsub (splitStart_monotone n S) S
  simpa [splitStart_last n S hS, splitStart_zero] using h

/-- Any row index below the `t`-th split boundary already falls in one of
the first `t` splits. -/
lemma split_cover_aux (n S r : ℕ) :
    ∀ t, r < splitStart n S t →
      ∃ s, s < t ∧ splitStart n S s ≤ r ∧ r < splitEnd n S s := by
  intro t
  induction t with
  | zero =>
    intro h
    rw [splitStart_zero] at h
    omega
  | succ t ih =>
    intro h
    by_cases hc : splitStart n S t ≤ r
    · exact ⟨t, Nat.lt_succ_self t, hc, by
        rw [splitEnd_eq_splitStart_succ]; exact h⟩
    · obtain ⟨s, hs1, hs2, hs3⟩ := ih (by omega)
      exact ⟨s, Nat.lt_succ_of_lt hs1, hs2, hs3⟩

/-- Every row index `r < n` falls in some split. -/
lemma split_cover (n S r : ℕ) (hS : 0 < S) (hr : r < n) :
    ∃ s, s < S ∧ splitStart n S s ≤ r ∧ r < splitEnd n S s := by
  apply split_cover_aux n S r S
  rw [splitStart_last n S hS]
  exact hr

/-- A row index lies in at most one split: for `s < t` the end of split `s`
is at most the start of split `t`. -/
lemma split_disjoint (n S r s t : ℕ) (hst : s < t)
    (_h1 : splitStart n S s ≤ r) (h2 : r < splitEnd n S s)
    (h3 : splitStart n S t ≤ r) (_h4 : r < splitEnd n S t) : False := by
  have h5 : splitEnd n S s ≤ splitStart n S t := by
    rw [splitEnd_eq_splitStart_succ]
    exact splitStart_monotone n S hst
  omega

/-- For `i < S` the upper boundary of split `i` stays within the matrix. -/
lemma splitEnd_le (n S i : ℕ) (hi : i < S) : splitEnd n S i ≤ n := by
  have h := splitStart_monotone n S (show i + 1 ≤ S from hi)
  rw [splitEnd_eq_splitStart_succ]
  calc splitStart n S (i + 1) ≤ splitStart n S S := h
    _ = n := splitStart_last n S (by omega)

/-! ### Batched inference driver lemmas (lines 21, 34-52) -/

/-- `n_batches * batch_size` reaches `n`: the loop covers all rows. -/
lemma le_nBatches_mul {n b : ℕ} (hb : 0 < b) : n ≤ nBatches n b * b := by
  unfold nBatches
  have h1 := Nat.div_add_mod (n + b - 1) b
  have h2 : (n + b - 1) % b < b := Nat.mod_lt _ hb
  rw [Nat.mul_comm]
  omega

/-- `n_batches` is the least such multiple: one batch fewer would miss
rows. -/
lemma nBatches_mul_lt {n b : ℕ} (hb : 0 < b) : nBatches n b * b < n + b := by
  unfold nBatches
  have h1 := Nat.div_mul_le_self (n + b - 1) b
  omega

/-- Resizing the batch then classifying each image equals classifying the
per-image resize of each image. -/
lemma prepBatch_map {α : Type} (classify : α → Row) (w h : ℕ)
    (resize1 : α → α) (l : List α) :
    (prepBatch w h resize1 l).map classify
      = l.map (fun a => classify (resizeIfNeeded w h resize1 a)) := by
  unfold prepBatch resizeIfNeeded
  by_cases hc : (w, h) ≠ (299, 299)
  · rw [if_pos hc, List.map_map]
    simp only [Function.comp, if_pos hc]
    rfl
  · rw [if_neg hc]
    simp only [if_neg hc]

/-- The conditional resize preserves the number of images in the batch. -/
lemma prepBatch_length {α : Type} (w h : ℕ) (resize1 : α → α) (l : List α) :
    (prepBatch w h resize1 l).length = l.length := by
  unfold prepBatch
  split <;> simp

/-- A row below the written range keeps its previous contents. -/
lemma writeRows_out_lt (ys : ℕ → Row) (start : ℕ) (rows : List Row) (r : ℕ)
    (h : r < start) : writeRows ys start rows r = ys r := by
  simp only [writeRows]
  rw [if_neg (by omega)]

/-- A row at or above the written range keeps its previous contents. -/
lemma writeRows_out_ge (ys : ℕ → Row) (start : ℕ) (rows : List Row) (r : ℕ)
    (h : start + rows.length ≤ r) : writeRows ys start rows r = ys r := by
  simp only [writeRows]
  rw [if_neg (by omega)]

/-- A row inside the written range takes the corresponding source row. -/
lemma writeRows_in (ys : ℕ → Row) (start : ℕ) (rows : List Row) (r : ℕ)
    (h1 : start ≤ r) (h2 : r < start + rows.length) :
    writeRows ys start rows r = rows.getD (r - start) (ys r) := by
  simp only [writeRows]
  rw [if_pos ⟨h1, h2⟩]

/-- A batch iteration writes only `ys`; the image array is untouched. -/
lemma runBatch_ims {α : Type} (classify : α → Row) (w h : ℕ)
    (resize1 : α → α) (batchSize : ℕ) (st : PipelineState α) (i : ℕ) :
    (runBatch classify w h resize1 batchSize st i).ims = st.ims := rfl

/-- No sequence of batch iterations touches the image array. -/
lemma foldl_runBatch_ims {α : Type} (classify : α → Row) (w h : ℕ)
    (resize1 : α → α) (batchSize : ℕ) (l : List ℕ) :
    ∀ st : PipelineState α,
      (l.foldl (runBatch classify w h resize1 batchSize) st).ims = st.ims := by
  induction l with
  | nil => intro st; rfl
  | cons a l ih =>
    intro st
    rw [List.foldl_cons, ih, runBatch_ims]

/-- The whole inference loop leaves the image array unchanged. -/
lemma runInference_ims {α : Type} (classify : α → Row) (w h : ℕ)
    (resize1 : α → α) (batchSize : ℕ) (st : PipelineState α) :
    (runInference classify w h resize1 batchSize st).ims = st.ims :=
  foldl_runBatch_ims classify w h resize1 batchSize _ st

/-- After the first `k` batch iterations, every row index below
`k * batch_size` (and within the matrix) holds the classifier's output on
the corresponding (conditionally resized) image. -/
lemma foldl_runBatch_fill {α : Type} (classify : α → Row) (w h : ℕ)
    (resize1 : α → α) (batchSize : ℕ) (st : PipelineState α) :
    ∀ (k r : ℕ) (hr : r < st.ims.length), r < k * batchSize →
      ((List.range k).foldl (runBatch classify w h resize1 batchSize) st).ys r
        = classify (resizeIfNeeded w h resize1 (st.ims.get ⟨r, hr⟩)) := by
  intro k
  induction k with
  | zero =>
    intro r hr h
    omega
  | succ k ih =>
    intro r hr hk
    rw [List.range_succ, List.foldl_append, List.foldl_cons, List.foldl_nil]
    set st' := (List.range k).foldl (runBatch classify w h resize1 batchSize) st
      with hst'
    have hims : st'.ims = st.ims :=
      foldl_runBatch_ims classify w h resize1 batchSize _ st
    by_cases hcase : r < k * batchSize
    · have hunt : (runBatch classify w h resize1 batchSize st' k).ys r
          = st'.ys r := by
        simp only [runBatch]
        exact writeRows_out_lt _ _ _ _ (by simpa [batchStart] using hcase)
      rw [hunt]
      exact ih r hr hcase
    · push_neg at hcase
      obtain ⟨j, rfl⟩ : ∃ j, r = k * batchSize + j :=
        ⟨r - k * batchSize, by omega⟩
      simp only [runBatch, hims, batchStart, prepBatch_map]
      have hben : batchEnd st.ims.length batchSize k ≤ st.ims.length :=
        Nat.min_le_right _ _
      have hrbe : k * batchSize + j < batchEnd st.ims.length batchSize k :=
        lt_min hk hr
      have hlen : (((st.ims.take (batchEnd st.ims.length batchSize k)).drop
          (k * batchSize)).map
            (fun a => classify (resizeIfNeeded w h resize1 a))).length
          = batchEnd st.ims.length batchSize k - k * batchSize := by
        rw [List.length_map, List.length_drop, List.length_take]
        omega
      rw [writeRows_in _ _ _ _ (by omega) (by omega)]
      rw [List.getD_eq_getElem _ _ (by omega)]
      simp only [Nat.add_sub_cancel_left, List.getElem_map,
        List.getElem_drop, List.getElem_take, List.get_eq_getElem]

/-- After the whole inference loop every row of the softmax container holds
the classifier's output on the corresponding image (conditionally
resized): every row is written, and written with the batch that covers
it. -/
lemma runInference_fill {α : Type} (classify : α → Row) (w h : ℕ)
    (resize1 : α → α) (batchSize : ℕ) (hb : 0 < batchSize)
    (st : PipelineState α) (r : ℕ) (hr : r < st.ims.length) :
    (runInference classify w h resize1 batchSize st).ys r
      = classify (resizeIfNeeded w h resize1 (st.ims.get ⟨r, hr⟩)) := by
  apply foldl_runBatch_fill
  calc r < st.ims.length := hr
    _ ≤ nBatches st.ims.length batchSize * batchSize := le_nBatches_mul hb

/-! ### Aggregation lemmas (lines 56-64) -/

/-- The split sub-matrix reads only the rows in
`[splitStart, splitEnd)`. -/
lemma partOf_congr (ys ys' : ℕ → Row) (n S i : ℕ)
    (hagree : ∀ r, splitStart n S i ≤ r → r < splitEnd n S i → ys r = ys' r) :
    partOf ys n S i = partOf ys' n S i := by
  unfold partOf splitRowIdx
  apply List.map_congr_left
  intro r hr
  rw [List.mem_range'] at hr
  obtain ⟨k, hk, rfl⟩ := hr
  exact hagree _ (by omega) (by omega)

/-- The whole score vector reads only rows `0 ≤ r < n` of the softmax
container. -/
lemma scoresList_congr (ys ys' : ℕ → Row) (n S : ℕ)
    (hagree : ∀ r, r < n → ys r = ys' r) :
    scoresList ys n S = scoresList ys' n S := by
  unfold scoresList
  apply List.map_congr_left
  intro i hi
  rw [List.mem_range] at hi
  rw [partOf_congr ys ys' n S i]
  intro r _ h2
  exact hagree r (lt_of_lt_of_le h2 (splitEnd_le n S i hi))

/-- The score loop produces one score per split. -/
lemma scoresList_length (ys : ℕ → Row) (n S : ℕ) :
    (scoresList ys n S).length = S := by
  unfold scoresList
  rw [List.length_map, List.length_range]

/-- The source's matrix-then-reduce computation of a split score (lines
59-62) equals the spec's per-row-KL-then-average formulation. -/
lemma splitScore_eq_spec (P : List Row) : splitScore P = specSplitScore P := by
  unfold splitScore specSplitScore klMatrix specKLRow marginal specMarginal
  rw [List.length_map, List.map_map]
  rw [Function.comp_def]

/-- The source's returned pair (line 64) equals the spec's (mean,
population standard deviation) of the score vector. -/
lemma aggregate_eq_spec (ys : ℕ → Row) (n S : ℕ) :
    aggregate ys n S = specResultPair (scoresList ys n S) := by
  unfold aggregate specResultPair meanList stdList
  rfl

/-! ### Constant-classifier facts (for the stub scenarios) -/

/-- Column-wise mean of identical rows is that row. -/
lemma marginal_replicate (k : ℕ) (hk : 0 < k) (p : Row) :
    marginal (List.replicate k p) = p := by
  funext c
  unfold marginal
  rw [List.map_replicate, List.sum_replicate, List.length_replicate,
    nsmul_eq_mul]
  exact mul_div_cancel_left₀ (p c) (Nat.cast_ne_zero.mpr (by omega))

/-- The spec-side per-row KL contribution of a row against itself
vanishes. -/
lemma specKLRow_self (p : Row) : specKLRow p p = 0 := by
  unfold specKLRow
  simp

/-- A split of identical rows scores `exp 0 = 1`. -/
lemma splitScore_replicate (k : ℕ) (hk : 0 < k) (p : Row) :
    splitScore (List.replicate k p) = 1 := by
  rw [splitScore_eq_spec]
  unfold specSplitScore
  have hm : specMarginal (List.replicate k p) = p :=
    marginal_replicate k hk p
  rw [hm, List.map_replicate, specKLRow_self, List.sum_replicate]
  simp

/-- Mean of identical scores is that score. -/
lemma meanList_replicate (S : ℕ) (hS : 0 < S) (x : ℝ) :
    meanList (List.replicate S x) = x := by
  unfold meanList
  rw [List.sum_replicate, List.length_replicate, nsmul_eq_mul]
  exact mul_div_cancel_left₀ x (Nat.cast_ne_zero.mpr (by omega))

/-- Population standard deviation of identical scores is zero. -/
lemma stdList_replicate (S : ℕ) (hS : 0 < S) (x : ℝ) :
    stdList (List.replicate S x) = 0 := by
  unfold stdList
  rw [meanList_replicate S hS x, List.map_replicate]
  simp

/-! ### Claim theorems -/

/-- C2: for every `N ≥ 1` and split count `S` with `1 ≤ S ≤ N`, split `s`
receives the row range `[s*N/S, (s+1)*N/S)` under floor division (this is
the definition of `splitStart`/`splitEnd`, line 58); each split has either
`⌊N/S⌋` or `⌊N/S⌋ + 1` rows, the split sizes sum to `N`, and every row
index `r < N` lies in exactly one split's range (no gaps, no overlaps). -/
theorem C2_split_partition (n S : ℕ) (hS : 1 ≤ S) (_hSn : S ≤ n) :
    (∀ s, s < S →
        splitEnd n S s - splitStart n S s = n / S
      ∨ splitEnd n S s - splitStart n S s = n / S + 1)
  ∧ (∑ s ∈ Finset.range S, (splitEnd n S s - splitStart n S s)) = n
  ∧ (∀ r, r < n →
      ∃! s, s < S ∧ splitStart n S s ≤ r ∧ r < splitEnd n S s) := by
  have hS0 : 0 < S := hS
  refine ⟨?_, sum_splitSizes n S hS0, ?_⟩
  · intro s _
    have h1 := splitSize_lower n S s hS0
    have h2 := splitSize_upper n S s hS0
    omega
  · intro r hr
    obtain ⟨s, hs1, hs2, hs3⟩ := split_cover n S r hS0 hr
    refine ⟨s, ⟨hs1, hs2, hs3⟩, ?_⟩
    rintro t ⟨ht1, ht2, ht3⟩
    by_contra hne
    rcases Nat.lt_or_ge t s with hlt | hge
    · exact split_disjoint n S r t s hlt ht2 ht3 hs2 hs3
    · exact split_disjoint n S r s t (by omega) hs2 hs3 ht2 ht3

/-- Witness for C2 at the spec's example `N = 23`, `S = 10`: split 3 has
`⌊23/10⌋ = 2` or `3` rows and the ten split sizes sum to 23. -/
theorem C2_split_partition_witness :
    (splitEnd 23 10 3 - splitStart 23 10 3 = 2
      ∨ splitEnd 23 10 3 - splitStart 23 10 3 = 3)
  ∧ (∑ s ∈ Finset.range 10, (splitEnd 23 10 s - splitStart 23 10 s)) = 23 := by
  have hpart := C2_split_partition 23 10 (by decide) (by decide)
  exact ⟨hpart.1 3 (by decide), hpart.2.1⟩

/-- C3: for `N ≥ 1` and `batch_size ≥ 1` the driver runs exactly
`⌈N / batch_size⌉` batches (`nBatches` is exactly the ceiling: it is the
unique `K` with `N ≤ K * batch_size < N + batch_size`); the batch row
ranges `[i*batch_size, min((i+1)*batch_size, N))` partition `[0, N)` with
no gaps or overlaps; and after the loop every row `r` of the probability
matrix holds the classifier's output on image `r` (conditionally resized),
i.e. every image is visited and every row written. -/
theorem C3_batch_driver {α : Type} (classify : α → Row) (w h : ℕ)
    (resize1 : α → α) (ims : List α) (batchSize : ℕ) (ys0 : ℕ → Row)
    (hb : 1 ≤ batchSize) (_hn : 1 ≤ ims.length) :
    (ims.length ≤ nBatches ims.length batchSize * batchSize
      ∧ nBatches ims.length batchSize * batchSize < ims.length + batchSize)
  ∧ (∀ r, r < ims.length →
      ∃! i, i < nBatches ims.length batchSize
        ∧ batchStart batchSize i ≤ r ∧ r < batchEnd ims.length batchSize i)
  ∧ (∀ r (hr : r < ims.length),
      (runInference classify w h resize1 batchSize ⟨ims, ys0⟩).ys r
        = classify (resizeIfNeeded w h resize1 (ims.get ⟨r, hr⟩))) := by
  have hb0 : 0 < batchSize := hb
  refine ⟨⟨le_nBatches_mul hb0, nBatches_mul_lt hb0⟩, ?_, ?_⟩
  · intro r hr
    refine ⟨r / batchSize, ⟨?_, ?_, ?_⟩, ?_⟩
    · apply Nat.div_lt_of_lt_mul
      calc r < ims.length := hr
        _ ≤ nBatches ims.length batchSize * batchSize := le_nBatches_mul hb0
        _ = batchSize * nBatches ims.length batchSize := by ring
    · exact Nat.div_mul_le_self r batchSize
    · apply lt_min ?_ hr
      have h1 := Nat.div_add_mod r batchSize
      have h2 : r % batchSize < batchSize := Nat.mod_lt _ hb0
      have h3 : (r / batchSize + 1) * batchSize
          = batchSize * (r / batchSize) + batchSize := by ring
      omega
    · rintro i ⟨_, hi2, hi3⟩
      have hi3' : r < (i + 1) * batchSize :=
        lt_of_lt_of_le hi3 (Nat.min_le_left _ _)
      rw [batchStart] at hi2
      have h5 : r / batchSize < i + 1 :=
        Nat.div_lt_of_lt_mul (by calc r < (i + 1) * batchSize := hi3'
                                    _ = batchSize * (i + 1) := by ring)
      have h6 : i ≤ r / batchSize := (Nat.le_div_iff_mul_le hb0).mpr hi2
      omega
  · intro r hr
    exact runInference_fill classify w h resize1 batchSize hb0 ⟨ims, ys0⟩ r hr

/-- Witness for C3 at the spec's example `N = 10`, `batch_size = 4` (three
batches of sizes 4, 4, 2): the batch count is the exact ceiling, and after
the loop row 9 holds the classifier output for image 9. -/
theorem C3_batch_driver_witness :
    ((List.replicate 10 ()).length
        ≤ nBatches (List.replicate 10 ()).length 4 * 4
      ∧ nBatches (List.replicate 10 ()).length 4 * 4
        < (List.replicate 10 ()).length + 4)
  ∧ (runInference (fun _ : Unit => fun _ => (1 : ℝ)) 299 299 (fun x => x) 4
      ⟨List.replicate 10 (), fun _ _ => 0⟩).ys 9 = fun _ => (1 : ℝ) := by
  have hdrv := C3_batch_driver (fun _ : Unit => fun _ => (1 : ℝ)) 299 299
    (fun x => x) (List.replicate 10 ()) 4 (fun _ _ => 0) (by decide) (by decide)
  exact ⟨hdrv.1, hdrv.2.2 9 (by decide)⟩

/-- C5: the image batch is never modified: after the whole inference loop
(the only part of `inception_score` that touches arrays of images) the
image array equals its initial contents.  Line 41's slice, `xp.asarray`
and the `Variable` wrapper alias `ims` without copying, `F.resize_images`
allocates a fresh array, and the in-place-looking `x -= 128.0` /
`x *= 0.0078125` of lines 589-590 rebind `x` to new chainer Variables
(Variables define no in-place operators), so no step writes into `ims`. -/
theorem C5_images_unmodified {α : Type} (classify : α → Row) (w h : ℕ)
    (resize1 : α → α) (batchSize : ℕ) (st : PipelineState α) :
    (runInference classify w h resize1 batchSize st).ims = st.ims :=
  runInference_ims classify w h resize1 batchSize st

/-- C6: line 50's two nested `using_config` context managers make the
classifier observe `train = false` and `enable_backprop = false`, and the
ambient configuration after the invocation equals the configuration before
it — for every outcome of the model, normal (`Except.ok`) or exceptional
(`Except.error`), since `usingConfig` restores the saved flag on the one
exit path there is. -/
theorem C6_scoped_config {ε α : Type} (model : ChainerConfig → Except ε α)
    (cfg : ChainerConfig) :
    (invokeClassifier model cfg).1
        = model { train := false, enableBackprop := false }
  ∧ (invokeClassifier model cfg).2 = cfg := by
  unfold invokeClassifier usingConfig getFlag setFlag
  exact ⟨rfl, rfl⟩

/-- C7: the batch is bilinearly resized to `(299, 299)` exactly when the
input spatial resolution `(w, h)` differs from `(299, 299)`; otherwise it
is handed to the classifier unchanged (lines 46-47). -/
theorem C7_conditional_resize {α : Type} (w h : ℕ) (resize1 : α → α)
    (batch : List α) :
    ((w, h) ≠ (299, 299) → prepBatch w h resize1 batch = batch.map resize1)
  ∧ ((w, h) = (299, 299) → prepBatch w h resize1 batch = batch) := by
  constructor
  · intro hc
    unfold prepBatch
    rw [if_pos hc]
  · intro hc
    unfold prepBatch
    rw [if_neg (fun hne => hne hc)]

/-- Witness for C7: a 32×32 batch is resized, a 299×299 batch is passed
through unchanged. -/
theorem C7_conditional_resize_witness :
    prepBatch 32 32 (fun x : ℕ => x + 1) [5] = [5].map (fun x => x + 1)
  ∧ prepBatch 299 299 (fun x : ℕ => x + 1) [5] = [5] :=
  ⟨(C7_conditional_resize 32 32 (fun x => x + 1) [5]).1 (by decide),
   (C7_conditional_resize 299 299 (fun x => x + 1) [5]).2 rfl⟩

/-- C10 counterexample: the container is allocated with 1008 columns, but a
classifier returning rows of width 1 — a width different from 1008 — does
NOT make the row-slice assignment of line 52 fail: numpy broadcasts a
`(k, 1)` source across the `(k, 1008)` destination slice.  This refutes
"a classifier returning any other width makes the row-slice assignment
fail" at `srcCols = 1`. -/
theorem C10_width_one_broadcasts :
    (ysShape 100).2 = 1008 ∧ (1 : ℕ) ≠ 1008 ∧ sliceAssignOk 1008 1 = true :=
  ⟨rfl, by decide, rfl⟩

/-- C10 amended: the probability matrix is allocated with shape
`(n, 1008)` independently of the classifier supplied, and the row-slice
assignment of line 52 accepts a classifier output of width `m` exactly
when `m = 1008` or `m = 1` (numpy broadcasting); every other width makes
the assignment fail. -/
theorem C10_hardcoded_classes (n m : ℕ) :
    (ysShape n).2 = 1008
  ∧ (sliceAssignOk 1008 m = true ↔ (m = 1008 ∨ m = 1)) := by
  refine ⟨rfl, ?_⟩
  unfold sliceAssignOk
  simp [Bool.or_eq_true, beq_iff_eq]

/-- C1 counterexample: at `N = 2` images, `batch_size = 25` and
`splits = 5 > N`, the engine performs one classifier invocation — a stub
classifier would record 1 call, not 0 — and the degenerate configuration
reaches the aggregation loop, where split 0 receives an empty row range.
No configuration error is raised before inference: lines 9-55 contain no
check of `splits` at all. -/
theorem C1_no_rejection_counterexample :
    2 < 5 ∧ classifierInvocations 2 25 = 1 ∧ splitRowIdx 2 5 0 = [] :=
  ⟨by decide, rfl, rfl⟩

/-- C1 amended: `inception_score` performs no validation of `splits`.  For
every `splits > N ≥ 1` (and any `batch_size ≥ 1`) the call is not rejected:
it unconditionally proceeds through the inference loop — the classifier is
invoked `⌈N/batch_size⌉ ≥ 1` times — and into the aggregation step, where
split 0 receives an empty row range (in the real code the empty-slice
column mean then produces NaN rather than a configuration error). -/
theorem C1_no_split_validation {α : Type} (classify : α → Row) (w h : ℕ)
    (resize1 : α → α) (ims : List α) (batchSize splits : ℕ) (ys0 : ℕ → Row)
    (hb : 1 ≤ batchSize) (hn : 1 ≤ ims.length) (hS : ims.length < splits) :
    inception_score classify w h resize1 ims batchSize splits ys0
        = aggregate (runInference classify w h resize1 batchSize
            ⟨ims, ys0⟩).ys ims.length splits
  ∧ 1 ≤ classifierInvocations ims.length batchSize
  ∧ splitRowIdx ims.length splits 0 = [] := by
  refine ⟨rfl, ?_, ?_⟩
  · unfold classifierInvocations nBatches
    rw [Nat.one_le_div_iff hb]
    omega
  · unfold splitRowIdx
    have h0 : splitStart ims.length splits 0 = 0 := splitStart_zero _ _
    have h1 : splitEnd ims.length splits 0 = 0 := by
      unfold splitEnd
      rw [Nat.one_mul]
      exact Nat.div_eq_of_lt hS
    rw [h0, h1]
    rfl

/-- Witness for C1's amended statement at `N = 2`, `batch_size = 25`,
`splits = 5`. -/
theorem C1_no_split_validation_witness :
    inception_score (fun _ : Unit => fun _ => (0 : ℝ)) 299 299 (fun x => x)
        (List.replicate 2 ()) 25 5 (fun _ _ => 0)
        = aggregate (runInference (fun _ : Unit => fun _ => (0 : ℝ)) 299 299
            (fun x => x) 25 ⟨List.replicate 2 (), fun _ _ => 0⟩).ys
            (List.replicate 2 ()).length 5
  ∧ 1 ≤ classifierInvocations (List.replicate 2 ()).length 25
  ∧ splitRowIdx (List.replicate 2 ()).length 5 0 = [] :=
  C1_no_split_validation (fun _ : Unit => fun _ => (0 : ℝ)) 299 299
    (fun x => x) (List.replicate 2 ()) 25 5 (fun _ _ => 0)
    (by decide) (by decide) (by decide)

/-- C4: the source's split score (lines 59-62: element-wise
`part * (log part - log marginal)`, sum over classes, mean over rows, exp)
equals the spec's formula (exp of the mean over the split's rows of the
per-row sum of `part[r,c] * (log part[r,c] - log marginal[c])`, with
`marginal` the column-wise mean of the split's rows); a split's score
depends only on that split's rows (matrices agreeing on
`[splitStart, splitEnd)` yield the same score); there is one score per
split; and the function's final result is the (arithmetic mean, population
standard deviation) pair of the `S` split scores. -/
theorem C4_split_score_formula (ys ys' : ℕ → Row) (n S i : ℕ) :
    splitScore (partOf ys n S i) = specSplitScore (partOf ys n S i)
  ∧ marginal (partOf ys n S i) = specMarginal (partOf ys n S i)
  ∧ ((∀ r, splitStart n S i ≤ r → r < splitEnd n S i → ys r = ys' r) →
      splitScore (partOf ys n S i) = splitScore (partOf ys' n S i))
  ∧ (scoresList ys n S).length = S
  ∧ aggregate ys n S = specResultPair (scoresList ys n S) := by
  refine ⟨splitScore_eq_spec _, rfl, ?_, scoresList_length ys n S,
    aggregate_eq_spec ys n S⟩
  intro hagree
  rw [partOf_congr ys ys' n S i hagree]

/-- Witness for C4's locality conjunct: two matrices that agree on split
0's rows `[0, 2)` of a 4-row, 2-split matrix but differ elsewhere give
the same split-0 score. -/
theorem C4_split_score_formula_witness :
    splitScore (partOf (fun r _ => if r < 2 then (1 : ℝ) else 7) 4 2 0)
      = splitScore (partOf (fun r _ => if r < 2 then (1 : ℝ) else 9) 4 2 0) := by
  apply (C4_split_score_formula (fun r _ => if r < 2 then (1 : ℝ) else 7)
    (fun r _ => if r < 2 then (1 : ℝ) else 9) 4 2 0).2.2.1
  intro r _ h2
  have hr2 : r < 2 := h2
  funext c
  rw [if_pos hr2, if_pos hr2]

/-- C8: `inception_score` is deterministic.  In the embedding the only
run-to-run varying state is the contents of the uninitialised `xp.empty`
buffer of line 32 (and the `scores` buffer of line 56, every entry of which
the loop overwrites): the result is independent of that garbage, because
every row the aggregation reads is first written by the inference loop.
Hence two runs on the same images, classifier and configuration return
identical results. -/
theorem C8_deterministic {α : Type} (classify : α → Row) (w h : ℕ)
    (resize1 : α → α) (ims : List α) (batchSize splits : ℕ)
    (ys0 ys0' : ℕ → Row) (hb : 1 ≤ batchSize) :
    inception_score classify w h resize1 ims batchSize splits ys0
      = inception_score classify w h resize1 ims batchSize splits ys0' := by
  have hb0 : 0 < batchSize := hb
  unfold inception_score aggregate
  have hsc : scoresList
        (runInference classify w h resize1 batchSize ⟨ims, ys0⟩).ys
        ims.length splits
      = scoresList
        (runInference classify w h resize1 batchSize ⟨ims, ys0'⟩).ys
        ims.length splits := by
    apply scoresList_congr
    intro r hr
    rw [runInference_fill classify w h resize1 batchSize hb0 ⟨ims, ys0⟩ r hr,
      runInference_fill classify w h resize1 batchSize hb0 ⟨ims, ys0'⟩ r hr]
  rw [hsc]

/-- Witness for C8: two runs whose uninitialised buffers hold different
garbage return the same result. -/
theorem C8_deterministic_witness :
    inception_score (fun _ : Unit => fun _ => (1 : ℝ)) 299 299 (fun x => x)
        [()] 1 1 (fun _ _ => 0)
      = inception_score (fun _ : Unit => fun _ => (1 : ℝ)) 299 299 (fun x => x)
        [()] 1 1 (fun _ _ => 5) :=
  C8_deterministic (fun _ : Unit => fun _ => (1 : ℝ)) 299 299 (fun x => x)
    [()] 1 1 (fun _ _ => 0) (fun _ _ => 5) (by decide)

/-- C9: a classifier returning the same fixed distribution `p` for every
image makes every split's marginal equal `p`, every per-row KL contribution
0, every split score `exp 0 = 1`, and the returned result `(1, 0)` —
for any `batch_size ≥ 1` and `1 ≤ splits ≤ N` (which covers the spec's
scenario `N = 100`, `batch_size = 25`, `splits = 10`), and any fixed `p`,
one-hot or uniform, under the real-valued model of the float computation. -/
theorem C9_constant_classifier {α : Type} (p : Row) (w h : ℕ)
    (resize1 : α → α) (ims : List α) (batchSize splits : ℕ) (ys0 : ℕ → Row)
    (hb : 1 ≤ batchSize) (hS : 1 ≤ splits) (hSn : splits ≤ ims.length) :
    (∀ i, i < splits →
      marginal (partOf (runInference (fun _ : α => p) w h resize1 batchSize
        ⟨ims, ys0⟩).ys ims.length splits i) = p)
  ∧ (∀ i, i < splits →
      ∀ row ∈ partOf (runInference (fun _ : α => p) w h resize1 batchSize
          ⟨ims, ys0⟩).ys ims.length splits i,
        specKLRow (marginal (partOf (runInference (fun _ : α => p) w h resize1
          batchSize ⟨ims, ys0⟩).ys ims.length splits i)) row = 0)
  ∧ (∀ i, i < splits →
      splitScore (partOf (runInference (fun _ : α => p) w h resize1 batchSize
        ⟨ims, ys0⟩).ys ims.length splits i) = 1)
  ∧ inception_score (fun _ : α => p) w h resize1 ims batchSize splits ys0
      = (1, 0) := by
  have hb0 : 0 < batchSize := hb
  have hS0 : 0 < splits := hS
  set ysF := (runInference (fun _ : α => p) w h resize1 batchSize
    ⟨ims, ys0⟩).ys with hysF
  have hfill : ∀ r, r < ims.length → ysF r = p := by
    intro r hr
    rw [hysF, runInference_fill (fun _ => p) w h resize1 batchSize hb0
      ⟨ims, ys0⟩ r hr]
  have hsize : ∀ i, i < splits →
      0 < splitEnd ims.length splits i - splitStart ims.length splits i := by
    intro i _
    have hl := splitSize_lower ims.length splits i hS0
    have hone : 1 ≤ ims.length / splits := (Nat.one_le_div_iff hS0).mpr hSn
    omega
  have hpart : ∀ i, i < splits → partOf ysF ims.length splits i
      = List.replicate
          (splitEnd ims.length splits i - splitStart ims.length splits i)
          p := by
    intro i hi
    unfold partOf splitRowIdx
    have hmem : ∀ r ∈ List.range' (splitStart ims.length splits i)
        (splitEnd ims.length splits i - splitStart ims.length splits i),
        ysF r = p := by
      intro r hrm
      rw [List.mem_range'] at hrm
      obtain ⟨k, hk, rfl⟩ := hrm
      apply hfill
      have hend := splitEnd_le ims.length splits i hi
      omega
    calc (List.range' (splitStart ims.length splits i)
          (splitEnd ims.length splits i - splitStart ims.length splits i)).map
            ysF
        = (List.range' (splitStart ims.length splits i)
            (splitEnd ims.length splits i
              - splitStart ims.length splits i)).map (fun _ => p) :=
          List.map_congr_left hmem
      _ = List.replicate (List.range' (splitStart ims.length splits i)
            (splitEnd ims.length splits i
              - splitStart ims.length splits i)).length p :=
          List.map_const' _ p
      _ = List.replicate
            (splitEnd ims.length splits i - splitStart ims.length splits i)
            p := by rw [List.length_range']
  have hmarg : ∀ i, i < splits →
      marginal (partOf ysF ims.length splits i) = p := by
    intro i hi
    rw [hpart i hi]
    exact marginal_replicate _ (hsize i hi) p
  have hscore : ∀ i, i < splits →
      splitScore (partOf ysF ims.length splits i) = 1 := by
    intro i hi
    rw [hpart i hi]
    exact splitScore_replicate _ (hsize i hi) p
  refine ⟨hmarg, ?_, hscore, ?_⟩
  · intro i hi row hrow
    rw [hpart i hi] at hrow
    rw [List.eq_of_mem_replicate hrow, hmarg i hi]
    exact specKLRow_self p
  · have hres : inception_score (fun _ : α => p) w h resize1 ims batchSize
        splits ys0 = aggregate ysF ims.length splits := rfl
    have hscores : scoresList ysF ims.length splits
        = List.replicate splits 1 := by
      unfold scoresList
      calc (List.range splits).map
            (fun i => splitScore (partOf ysF ims.length splits i))
          = (List.range splits).map (fun _ => (1 : ℝ)) := by
            apply List.map_congr_left
            intro i hi
            exact hscore i (List.mem_range.mp hi)
        _ = List.replicate (List.range splits).length (1 : ℝ) :=
            List.map_const' _ _
        _ = List.replicate splits 1 := by rw [List.length_range]
    rw [hres]
    unfold aggregate
    rw [hscores, meanList_replicate splits hS0 1, stdList_replicate splits hS0 1]

/-- Witness for C9 at the spec's scenario: `N = 100`, `batch_size = 25`,
`splits = 10`, uniform stub distribution — the result is `(1, 0)`. -/
theorem C9_constant_classifier_witness :
    inception_score (fun _ : Unit => fun _ => (1008 : ℝ)⁻¹) 299 299
      (fun x => x) (List.replicate 100 ()) 25 10 (fun _ _ => 0) = (1, 0) :=
  (C9_constant_classifier (fun _ => (1008 : ℝ)⁻¹) 299 299 (fun x => x)
    (List.replicate 100 ()) 25 10 (fun _ _ => 0)
    (by decide) (by decide) (by decide)).2.2.2

end InceptionScore
